import Mathlib

/-!
Verification of the Go rules engine in `EnjoyGo.py` (class `GoGame`).

The board is an N×N grid of cell values 0 (empty), 1 (black), 2 (white),
embedded as a row-major `List (List Nat)`.  All stateful Python methods are
embedded as pure functions on a `GoGame` structure; the speculative
mutate-then-revert pattern of the source (`is_valid_move`, `is_ko_violation`)
nets to no state change, so those methods become pure Boolean functions.
The memoization caches (`group_cache`, `territory_cache`) are keyed by the
full grid content, hence they memoize pure functions and are omitted.
-/

set_option autoImplicit false

namespace EnjoyGo

abbrev Point := Nat × Nat

abbrev Grid := List (List Nat)

/-- Read a cell; out-of-shape reads default to 0 (empty). -/
def gridGet (g : Grid) (p : Point) : Nat := (g.getD p.1 []).getD p.2 0

/-- `self.board[x, y] = v` in the source. -/
def gridSet (g : Grid) (p : Point) (v : Nat) : Grid :=
  g.set p.1 ((g.getD p.1 []).set p.2 v)

/-- The loop `for cx, cy in captured: self.board[cx, cy] = Stone.EMPTY.value`:
pointwise, every cell in `s` becomes 0 and all others keep their value
(the grid's shape is preserved row by row). -/
def clearPoints (g : Grid) (s : Finset Point) : Grid :=
  (List.range g.length).map (fun i =>
    (List.range (g.getD i []).length).map (fun j =>
      if (i, j) ∈ s then 0 else gridGet g (i, j)))

/-- The grid is an n×n matrix. -/
def WfGrid (n : Nat) (g : Grid) : Prop :=
  g.length = n ∧ ∀ row ∈ g, row.length = n

instance (n : Nat) (g : Grid) : Decidable (WfGrid n g) := by
  unfold WfGrid; exact inferInstance

/-- All in-range points `0 ≤ x < n`, `0 ≤ y < n`. -/
def boardPoints (n : Nat) : Finset Point := Finset.range n ×ˢ Finset.range n

lemma mem_boardPoints {n : Nat} {p : Point} :
    p ∈ boardPoints n ↔ p.1 < n ∧ p.2 < n := by
  simp [boardPoints, Finset.mem_product]

/-- 4-adjacency: the four orthogonal neighbor offsets of the source. -/
def adjacent (p q : Point) : Prop :=
  (p.1 = q.1 ∧ (p.2 + 1 = q.2 ∨ q.2 + 1 = p.2)) ∨
  (p.2 = q.2 ∧ (p.1 + 1 = q.1 ∨ q.1 + 1 = p.1))

instance (p q : Point) : Decidable (adjacent p q) := by
  unfold adjacent; exact inferInstance

lemma adjacent_symm {p q : Point} (h : adjacent p q) : adjacent q p := by
  unfold adjacent at h ⊢; tauto

lemma adjacent_irrefl (p : Point) : ¬ adjacent p p := by
  unfold adjacent; omega

/-- The in-range cells holding color `c`. -/
def colorCells (n : Nat) (g : Grid) (c : Nat) : Finset Point :=
  (boardPoints n).filter (fun q => gridGet g q = c)

lemma mem_colorCells {n : Nat} {g : Grid} {c : Nat} {q : Point} :
    q ∈ colorCells n g c ↔ q ∈ boardPoints n ∧ gridGet g q = c := by
  simp [colorCells]

/-! ### Connected components (flood fill)

`get_group` in the source is an explicit-stack flood fill returning the
*set* of same-colored stones connected to the start point; the territory
scorer runs the same kind of fill over empty cells.  Both are instances of
the connected component of a point within an "allowed" cell set `A` under
4-adjacency, computed here by saturating a one-step expansion. -/

/-- One expansion round: add every allowed cell adjacent to the current set. -/
def expandOnce (A : Finset Point) (S : Finset Point) : Finset Point :=
  S ∪ A.filter (fun q => ∃ r ∈ S, adjacent r q)

/-- Connected component of `p` inside `A`: saturate `expandOnce`.
`A.card + 1` rounds always reach the fixpoint (see `expand_compo_fix`). -/
def compo (A : Finset Point) (p : Point) : Finset Point :=
  (expandOnce A)^[A.card + 1] {p}

lemma subset_expandOnce (A S : Finset Point) : S ⊆ expandOnce A S :=
  Finset.subset_union_left

lemma iterate_expand_grow (A : Finset Point) (S : Finset Point) (n : Nat) :
    S ⊆ (expandOnce A)^[n] S := by
  induction n with
  | zero => simp
  | succ k ih =>
      rw [Function.iterate_succ_apply']
      exact ih.trans (subset_expandOnce A _)

lemma mem_compo_self (A : Finset Point) (p : Point) : p ∈ compo A p := by
  have := iterate_expand_grow A {p} (A.card + 1)
  exact this (Finset.mem_singleton_self p)

lemma iterate_expand_bound (A : Finset Point) (p : Point) (n : Nat) :
    (expandOnce A)^[n] {p} ⊆ insert p A := by
  induction n with
  | zero => simp
  | succ k ih =>
      rw [Function.iterate_succ_apply']
      intro x hx
      rcases Finset.mem_union.1 hx with h | h
      · exact ih h
      · exact Finset.mem_insert_of_mem (Finset.mem_filter.1 h).1

lemma compo_subset_insert (A : Finset Point) (p : Point) :
    compo A p ⊆ insert p A :=
  iterate_expand_bound A p _

lemma compo_subset {A : Finset Point} {p : Point} (hp : p ∈ A) :
    compo A p ⊆ A := by
  have h := compo_subset_insert A p
  rwa [Finset.insert_eq_self.2 hp] at h

lemma iterate_fix_stable {α : Type} (f : α → α) (x : α) (k : Nat)
    (h : f (f^[k] x) = f^[k] x) : ∀ m, k ≤ m → f^[m] x = f^[k] x := by
  intro m hm
  obtain ⟨d, rfl⟩ := Nat.exists_eq_add_of_le hm
  induction d with
  | zero => rfl
  | succ e ih =>
      have : k + (e + 1) = (k + e) + 1 := by omega
      rw [this, Function.iterate_succ_apply', ih (by omega), h]

lemma expand_compo_fix (A : Finset Point) (p : Point) :
    expandOnce A (compo A p) = compo A p := by
  have hstep : ∃ k, k ≤ A.card ∧
      expandOnce A ((expandOnce A)^[k] {p}) = (expandOnce A)^[k] {p} := by
    by_contra hcon
    push_neg at hcon
    have hgrow : ∀ k, k ≤ A.card + 1 → k + 1 ≤ ((expandOnce A)^[k] {p}).card := by
      intro k
      induction k with
      | zero => intro _; simp
      | succ j ih =>
          intro hj
          have hne := hcon j (by omega)
          have hsub : (expandOnce A)^[j] {p} ⊆ (expandOnce A)^[j+1] {p} := by
            rw [Function.iterate_succ_apply']
            exact subset_expandOnce A _
          have hssub : (expandOnce A)^[j] {p} ⊂ (expandOnce A)^[j+1] {p} := by
            refine Finset.ssubset_iff_subset_ne.2 ⟨hsub, ?_⟩
            intro he
            rw [Function.iterate_succ_apply'] at he
            exact hne he.symm
          have hcard := Finset.card_lt_card hssub
          have := ih (by omega)
          omega
    have h1 := hgrow (A.card + 1) le_rfl
    have h2 : ((expandOnce A)^[A.card + 1] {p}).card ≤ (insert p A).card :=
      Finset.card_le_card (iterate_expand_bound A p _)
    have h3 : (insert p A).card ≤ A.card + 1 := Finset.card_insert_le p A
    omega
  obtain ⟨k, hk, hfix⟩ := hstep
  have hst := iterate_fix_stable (expandOnce A) {p} k hfix
  have h1 := hst (A.card + 1) (by omega)
  unfold compo
  rw [h1, hfix]

lemma compo_closed {A : Finset Point} {p q r : Point}
    (hq : q ∈ compo A p) (hr : r ∈ A) (hadj : adjacent q r) :
    r ∈ compo A p := by
  have : r ∈ expandOnce A (compo A p) := by
    refine Finset.mem_union_right _ (Finset.mem_filter.2 ⟨hr, ⟨q, hq, hadj⟩⟩)
  rwa [expand_compo_fix] at this

/-- Reachability by paths whose every step lands in `A`. -/
def ReachIn (A : Finset Point) (p q : Point) : Prop :=
  Relation.ReflTransGen (fun a b => b ∈ A ∧ adjacent a b) p q

lemma compo_subset_reach (A : Finset Point) (p : Point) :
    ∀ x ∈ compo A p, ReachIn A p x := by
  have main : ∀ n, ∀ x ∈ (expandOnce A)^[n] {p}, ReachIn A p x := by
    intro n
    induction n with
    | zero =>
        intro x hx
        simp only [Function.iterate_zero_apply, Finset.mem_singleton] at hx
        exact hx ▸ Relation.ReflTransGen.refl
    | succ k ih =>
        intro x hx
        rw [Function.iterate_succ_apply'] at hx
        rcases Finset.mem_union.1 hx with h | h
        · exact ih x h
        · obtain ⟨hxA, r, hr, hadj⟩ := Finset.mem_filter.1 h
          exact Relation.ReflTransGen.tail (ih r hr) ⟨hxA, hadj⟩
  exact main _

lemma reach_subset_compo {A : Finset Point} {p : Point} :
    ∀ x, ReachIn A p x → x ∈ compo A p := by
  intro x hx
  induction hx with
  | refl => exact mem_compo_self A p
  | tail _ hstep ih => exact compo_closed ih hstep.1 hstep.2

lemma reach_mem_right {A : Finset Point} {p x : Point} (h : ReachIn A p x) :
    x = p ∨ x ∈ A := by
  induction h with
  | refl => exact Or.inl rfl
  | tail _ hstep _ => exact Or.inr hstep.1

lemma reach_symm {A : Finset Point} {p q : Point} (hp : p ∈ A)
    (h : ReachIn A p q) : ReachIn A q p := by
  induction h with
  | refl => exact Relation.ReflTransGen.refl
  | tail hpx hstep ih =>
      rename_i x y
      have hxA : x ∈ A := by
        rcases reach_mem_right hpx with h1 | h1
        · exact h1 ▸ hp
        · exact h1
      exact Relation.ReflTransGen.head ⟨hxA, adjacent_symm hstep.2⟩ ih

lemma reach_trans {A : Finset Point} {p q r : Point}
    (h1 : ReachIn A p q) (h2 : ReachIn A q r) : ReachIn A p r :=
  Relation.ReflTransGen.trans h1 h2

lemma compo_eq_of_mem {A : Finset Point} {p q : Point} (hp : p ∈ A)
    (hq : q ∈ compo A p) : compo A q = compo A p := by
  have hqA : q ∈ A := compo_subset hp hq
  have hpq : ReachIn A p q := compo_subset_reach A p q hq
  have hqp : ReachIn A q p := reach_symm hp hpq
  apply Finset.ext
  intro x
  constructor
  · intro hx
    exact reach_subset_compo x (reach_trans hpq (compo_subset_reach A q x hx))
  · intro hx
    exact reach_subset_compo x (reach_trans hqp (compo_subset_reach A p x hx))

lemma reach_mono {A B : Finset Point} {p x : Point} (hBA : B ⊆ A)
    (h : ReachIn B p x) : ReachIn A p x := by
  induction h with
  | refl => exact Relation.ReflTransGen.refl
  | tail _ hstep ih => exact Relation.ReflTransGen.tail ih ⟨hBA hstep.1, hstep.2⟩

lemma compo_mono {A B : Finset Point} {p : Point} (hBA : B ⊆ A) :
    compo B p ⊆ compo A p := by
  intro x hx
  exact reach_subset_compo x (reach_mono hBA (compo_subset_reach B p x hx))

lemma compo_congr {A B : Finset Point} {p : Point} (hBA : B ⊆ A)
    (hsub : compo A p ⊆ B) : compo B p = compo A p := by
  apply Finset.Subset.antisymm (compo_mono hBA)
  have key : ∀ x, ReachIn A p x → x ∈ compo A p ∧ ReachIn B p x := by
    intro x hr
    induction hr with
    | refl => exact ⟨mem_compo_self A p, Relation.ReflTransGen.refl⟩
    | tail hp1 hstep ih =>
        have hmem := compo_closed ih.1 hstep.1 hstep.2
        exact ⟨hmem, Relation.ReflTransGen.tail ih.2 ⟨hsub hmem, hstep.2⟩⟩
  intro x hx
  exact reach_subset_compo x (key x (compo_subset_reach A p x hx)).2

/-! ### The game state and its operations -/

/-- `GameState` enum of the source. -/
inductive GState where
  | ONGOING
  | FINISHED
deriving DecidableEq, Repr

/-- The argument accepted by `make_move` / `is_valid_move`: the string
`"pass"`, a 2-tuple of Python ints, or any other value (not a tuple, or a
tuple of length ≠ 2), which the `isinstance`/`len` guard rejects. -/
inductive MoveArg where
  | pass
  | coord (x y : Int)
  | malformed
deriving DecidableEq, Repr

/-- The `GoGame` state: board grid (cells 0 = empty, 1 = black, 2 = white),
side to move, bounded snapshot history, move record, consecutive-pass
counter, game status and per-color captured-stone counts.
`captured_stones[Stone.BLACK]`/`[Stone.WHITE]` become two Nat fields. -/
structure GoGame where
  size : Nat
  board : Grid
  current_player : Nat
  previous_boards : List Grid
  move_history : List MoveArg
  consecutive_passes : Nat
  state : GState
  captured_black : Nat
  captured_white : Nat
  last_move : Option MoveArg
deriving DecidableEq, Repr

/-- `GoGame.__init__`. -/
def initGame (n : Nat) : GoGame where
  size := n
  board := List.replicate n (List.replicate n 0)
  current_player := 1
  previous_boards := []
  move_history := []
  consecutive_passes := 0
  state := GState.ONGOING
  captured_black := 0
  captured_white := 0
  last_move := none

/-- `Stone.WHITE if self.current_player == Stone.BLACK else Stone.BLACK`. -/
def switchPlayer (c : Nat) : Nat := if c = 1 then 2 else 1

/-- `get_group` / `get_group_cached`: flood fill of the maximal connected
set of stones of the color at `point`; empty start yields the empty set.
(The cache is keyed by the full grid content, hence memoizes this pure
function.) -/
def get_group (n : Nat) (g : Grid) (p : Point) : Finset Point :=
  if gridGet g p = 0 then ∅ else compo (colorCells n g (gridGet g p)) p

/-- `get_liberties`: all in-range empty points adjacent to a member of the
group. -/
def get_liberties (n : Nat) (g : Grid) (group : Finset Point) : Finset Point :=
  (boardPoints n).filter (fun q => gridGet g q = 0 ∧ ∃ r ∈ group, adjacent r q)

/-- `check_capture`: for each of the four in-range orthogonal neighbors of
`point` holding the opposing color `3 - current_player`, if the neighbor's
chain has no liberties outside `point` itself, the entire chain is added. -/
def check_capture (n : Nat) (g : Grid) (player : Nat) (p : Point) : Finset Point :=
  ((boardPoints n).filter
      (fun adj => adjacent p adj ∧ gridGet g adj = 3 - player)).biUnion
    (fun adj =>
      if get_liberties n g (get_group n g adj) \ {p} = ∅
      then get_group n g adj else ∅)

/-- The grid content after speculatively placing the mover's stone at `p`
and removing the chains captured per `check_capture` — the quantity whose
bytes `is_ko_violation` compares against the history, and also the new
board committed by an accepted `make_move`. -/
def speculativeResult (g : GoGame) (p : Point) : Grid :=
  let b1 := gridSet g.board p g.current_player
  clearPoints b1 (check_capture g.size b1 g.current_player p)

/-- `is_ko_violation`: with a non-empty history, speculatively place the
stone, resolve captures, and compare the resulting grid content against
every stored snapshot (`tobytes` equality = grid equality, all boards being
n×n copies); the temporary mutation is fully reverted in the source, so the
function is pure. -/
def is_ko_violation (g : GoGame) (p : Point) : Bool :=
  if g.previous_boards = [] then false
  else decide (speculativeResult g p ∈ g.previous_boards)

/-- `is_valid_move`: pass is always valid; malformed and out-of-range
arguments are invalid; the target must be empty and not a ko violation;
finally the speculative placement must leave the mover's chain with a
liberty or capture at least one enemy stone (the temporary stone is
reverted, so the function is pure). -/
def is_valid_move (g : GoGame) (m : MoveArg) : Bool :=
  match m with
  | MoveArg.pass => true
  | MoveArg.malformed => false
  | MoveArg.coord x y =>
    if 0 ≤ x ∧ x < (g.size : Int) ∧ 0 ≤ y ∧ y < (g.size : Int) then
      if gridGet g.board (x.toNat, y.toNat) ≠ 0 then false
      else if is_ko_violation g (x.toNat, y.toNat) then false
      else
        decide (get_liberties g.size
            (gridSet g.board (x.toNat, y.toNat) g.current_player)
            (get_group g.size
              (gridSet g.board (x.toNat, y.toNat) g.current_player)
              (x.toNat, y.toNat)) ≠ ∅) ||
          decide (check_capture g.size
            (gridSet g.board (x.toNat, y.toNat) g.current_player)
            g.current_player (x.toNat, y.toNat) ≠ ∅)
    else false

/-- `make_move`: rejects anything once finished; a pass bumps the counter,
records the move, toggles the player and finishes the game at two passes;
a placement must pass `is_valid_move`, then the pre-move grid is pushed
onto the history (oldest snapshot popped past 8 entries), the stone is
placed, captured chains are cleared and credited to the mover, the move is
recorded and the player toggles.  Rejections return the state unchanged. -/
def make_move (g : GoGame) (m : MoveArg) : Bool × GoGame :=
  if g.state = GState.FINISHED then (false, g)
  else
    match m with
    | MoveArg.pass =>
      (true, { g with
        consecutive_passes := g.consecutive_passes + 1,
        move_history := g.move_history ++ [MoveArg.pass],
        current_player := switchPlayer g.current_player,
        state := if 2 ≤ g.consecutive_passes + 1 then GState.FINISHED
                 else g.state })
    | MoveArg.malformed => (false, g)
    | MoveArg.coord x y =>
      if 0 ≤ x ∧ x < (g.size : Int) ∧ 0 ≤ y ∧ y < (g.size : Int) then
        if is_valid_move g (MoveArg.coord x y) then
          (true, { g with
            board := clearPoints
              (gridSet g.board (x.toNat, y.toNat) g.current_player)
              (check_capture g.size
                (gridSet g.board (x.toNat, y.toNat) g.current_player)
                g.current_player (x.toNat, y.toNat)),
            previous_boards :=
              if 8 < (g.previous_boards ++ [g.board]).length
              then (g.previous_boards ++ [g.board]).tail
              else g.previous_boards ++ [g.board],
            consecutive_passes := 0,
            captured_black := g.captured_black +
              (if g.current_player = 1 then
                (check_capture g.size
                  (gridSet g.board (x.toNat, y.toNat) g.current_player)
                  g.current_player (x.toNat, y.toNat)).card
               else 0),
            captured_white := g.captured_white +
              (if g.current_player = 2 then
                (check_capture g.size
                  (gridSet g.board (x.toNat, y.toNat) g.current_player)
                  g.current_player (x.toNat, y.toNat)).card
               else 0),
            move_history := g.move_history ++ [MoveArg.coord x y],
            last_move := some (MoveArg.coord x y),
            current_player := switchPlayer g.current_player })
        else (false, g)
      else (false, g)

/-- Row-major scan order of `get_valid_moves` and `calculate_territory`. -/
def rowMajorPoints (n : Nat) : List Point :=
  (List.range n).flatMap (fun i => (List.range n).map (fun j => (i, j)))

/-- `get_valid_moves`: all board coordinates passing `is_valid_move`, in
row-major order. -/
def get_valid_moves (g : GoGame) : List Point :=
  (rowMajorPoints g.size).filter
    (fun p => is_valid_move g (MoveArg.coord (p.1 : Int) (p.2 : Int)))

/-- The distinct stone colors bordering a region: values of the occupied
in-range cells 4-adjacent to a region member (`boundary` in `flood_fill`). -/
def borderColors (n : Nat) (g : Grid) (S : Finset Point) : Finset Nat :=
  ((boardPoints n).filter
      (fun q => gridGet g q ≠ 0 ∧ ∃ r ∈ S, adjacent r q)).image (gridGet g)

/-- One iteration of the `calculate_territory` scan at point `p`, carrying
(global visited set, black territory, white territory).  An unvisited empty
point flood-fills its region (the fill never crosses the shared visited
set), collects the bordering stone colors, and credits the region's size to
the unique bordering color, if any (cell values are the `Stone` enum, so a
singleton boundary is `{1}` or `{2}`). -/
def territoryStep (n : Nat) (g : Grid) (st : Finset Point × Nat × Nat)
    (p : Point) : Finset Point × Nat × Nat :=
  if gridGet g p = 0 ∧ p ∉ st.1 then
    let region := compo (colorCells n g 0 \ st.1) p
    let boundary := borderColors n g region
    if boundary = {1} then (st.1 ∪ region, st.2.1 + region.card, st.2.2)
    else if boundary = {2} then (st.1 ∪ region, st.2.1, st.2.2 + region.card)
    else (st.1 ∪ region, st.2.1, st.2.2)
  else st

/-- `calculate_territory`: scan all points row-major with a shared visited
set, attribute uniquely-bordered empty regions, then add each color's
captured-stone count.  Returns (black points, white points). -/
def calculate_territory (g : GoGame) : Nat × Nat :=
  let final := (rowMajorPoints g.size).foldl (territoryStep g.size g.board) (∅, 0, 0)
  (final.2.1 + g.captured_black, final.2.2 + g.captured_white)

/-- States reachable from a fresh game by arbitrary `make_move` calls. -/
inductive Reachable : GoGame → Prop where
  | init (n : Nat) : Reachable (initGame n)
  | step (g : GoGame) (m : MoveArg) : Reachable g → Reachable (make_move g m).2

/-- The full range of Python values `make_move` may receive: additionally
to `MoveArg`, a 2-tuple whose components are not integers (e.g.
`("a", "b")`), which passes the `isinstance`/`len` guard but makes the
comparison `0 <= x < self.size` (or the subsequent board indexing) raise an
uncaught `TypeError`/`IndexError`. -/
inductive PyMoveArg where
  | pass
  | coord (x y : Int)
  | nonNumPair
  | malformed
deriving DecidableEq, Repr

/-- Modelled fault behavior of `make_move` over arbitrary arguments:
`none` is an uncaught Python exception.  The clean argument classes behave
as `make_move`; a 2-tuple with non-integer components raises once the
range comparison is reached, i.e. whenever the game is not yet finished
(when finished, `make_move` returns `False` before touching the tuple). -/
def make_move_checked (g : GoGame) (m : PyMoveArg) : Option (Bool × GoGame) :=
  match m with
  | PyMoveArg.pass => some (make_move g MoveArg.pass)
  | PyMoveArg.coord x y => some (make_move g (MoveArg.coord x y))
  | PyMoveArg.malformed => some (make_move g MoveArg.malformed)
  | PyMoveArg.nonNumPair =>
      if g.state = GState.FINISHED then some (false, g) else none

/-! ### Pointwise grid lemmas -/

lemma list_getD_set_self {α : Type} (l : List α) (i : Nat) (v d : α)
    (h : i < l.length) : (l.set i v).getD i d = v := by
  induction l generalizing i with
  | nil => simp at h
  | cons a t ih =>
      cases i with
      | zero => rfl
      | succ j => exact ih j (by simpa using h)

lemma list_getD_set_ne {α : Type} (l : List α) (i j : Nat) (v d : α)
    (h : j ≠ i) : (l.set i v).getD j d = l.getD j d := by
  induction l generalizing i j with
  | nil => rfl
  | cons a t ih =>
      cases i with
      | zero =>
          cases j with
          | zero => exact absurd rfl h
          | succ k => rfl
      | succ i' =>
          cases j with
          | zero => rfl
          | succ k => exact ih i' k (by omega)

lemma getD_row_length {n : Nat} {g : Grid} (hwf : WfGrid n g) {i : Nat}
    (hi : i < n) : (g.getD i []).length = n := by
  have hlen : i < g.length := by rw [hwf.1]; exact hi
  rw [List.getD_eq_getElem g [] hlen]
  exact hwf.2 _ (List.getElem_mem hlen)

lemma gridGet_set_self {n : Nat} {g : Grid} {p : Point} {v : Nat}
    (hwf : WfGrid n g) (hp : p ∈ boardPoints n) :
    gridGet (gridSet g p v) p = v := by
  obtain ⟨h1, h2⟩ := mem_boardPoints.1 hp
  unfold gridGet gridSet
  rw [list_getD_set_self _ _ _ _ (by rw [hwf.1]; exact h1)]
  exact list_getD_set_self _ _ _ _ (by rw [getD_row_length hwf h1]; exact h2)

lemma gridGet_set_ne {g : Grid} {p q : Point} {v : Nat} (h : q ≠ p) :
    gridGet (gridSet g p v) q = gridGet g q := by
  unfold gridGet gridSet
  by_cases h1 : q.1 = p.1
  · have h2 : q.2 ≠ p.2 := fun h2 => h (Prod.ext h1 h2)
    rw [h1]
    by_cases hlen : p.1 < g.length
    · rw [list_getD_set_self _ _ _ _ hlen]
      exact list_getD_set_ne _ _ _ _ _ h2
    · rw [List.set_eq_of_length_le (by omega)]
  · rw [list_getD_set_ne _ _ _ _ _ h1]

lemma wf_gridSet {n : Nat} {g : Grid} {p : Point} {v : Nat}
    (hwf : WfGrid n g) (hp : p ∈ boardPoints n) : WfGrid n (gridSet g p v) := by
  obtain ⟨h1, _⟩ := mem_boardPoints.1 hp
  constructor
  · rw [gridSet, List.length_set, hwf.1]
  · intro row hrow
    rcases List.mem_or_eq_of_mem_set hrow with h | h
    · exact hwf.2 row h
    · subst h
      rw [List.length_set]
      exact getD_row_length hwf h1

lemma getD_map_range {α : Type} (m i : Nat) (f : Nat → α) (d : α) :
    ((List.range m).map f).getD i d = if i < m then f i else d := by
  by_cases h : i < m
  · rw [List.getD_eq_getElem _ d (by simpa using h), List.getElem_map,
      List.getElem_range, if_pos h]
  · rw [List.getD_eq_default _ d (by simpa using h), if_neg h]

lemma wf_clearPoints {n : Nat} {g : Grid} {s : Finset Point}
    (hwf : WfGrid n g) : WfGrid n (clearPoints g s) := by
  constructor
  · rw [clearPoints, List.length_map, List.length_range, hwf.1]
  · intro row hrow
    rw [clearPoints] at hrow
    obtain ⟨i, hi, rfl⟩ := List.mem_map.1 hrow
    rw [List.length_map, List.length_range]
    rw [List.mem_range, hwf.1] at hi
    exact getD_row_length hwf hi

lemma gridGet_clearPoints {n : Nat} {g : Grid} {s : Finset Point} {q : Point}
    (hwf : WfGrid n g) (hq : q ∈ boardPoints n) :
    gridGet (clearPoints g s) q = if q ∈ s then 0 else gridGet g q := by
  obtain ⟨h1, h2⟩ := mem_boardPoints.1 hq
  conv =>
    lhs
    rw [gridGet, clearPoints]
  rw [getD_map_range, if_pos (by rw [hwf.1]; exact h1), getD_map_range,
    if_pos (by rw [getD_row_length hwf h1]; exact h2)]

lemma gridGet_out {n : Nat} {g : Grid} {q : Point} (hwf : WfGrid n g)
    (hq : q ∉ boardPoints n) : gridGet g q = 0 := by
  rw [mem_boardPoints] at hq
  push_neg at hq
  unfold gridGet
  by_cases h1 : q.1 < n
  · rw [List.getD_eq_default _ 0 (by rw [getD_row_length hwf h1]; exact hq h1)]
  · rw [List.getD_eq_default g [] (by rw [hwf.1]; omega)]
    rfl

lemma wf_init (n : Nat) : WfGrid n (initGame n).board := by
  constructor
  · simp [initGame]
  · intro row hrow
    simp only [initGame] at hrow
    rw [List.eq_of_mem_replicate hrow]
    simp

lemma getD_replicate' {α : Type} (n i : Nat) (a d : α) :
    (List.replicate n a).getD i d = if i < n then a else d := by
  induction n generalizing i with
  | zero => simp
  | succ m ih =>
      cases i with
      | zero => simp
      | succ j =>
          simp only [List.replicate_succ, List.getD_cons_succ, ih]
          simp [Nat.add_lt_add_iff_right]


lemma gridGet_init (n : Nat) (p : Point) : gridGet (initGame n).board p = 0 := by
  unfold gridGet initGame
  simp only
  rw [getD_replicate']
  by_cases h1 : p.1 < n
  · rw [if_pos h1, getD_replicate']
    by_cases h2 : p.2 < n
    · rw [if_pos h2]
    · rw [if_neg h2]
  · rw [if_neg h1]
    rfl

/-! ### Chain (group), liberty and capture lemmas -/

lemma mem_get_liberties {n : Nat} {g : Grid} {S : Finset Point} {q : Point} :
    q ∈ get_liberties n g S ↔
      q ∈ boardPoints n ∧ gridGet g q = 0 ∧ ∃ r ∈ S, adjacent r q := by
  simp [get_liberties]

lemma get_group_eq {n : Nat} {g : Grid} {p : Point} (hc : gridGet g p ≠ 0) :
    get_group n g p = compo (colorCells n g (gridGet g p)) p := by
  rw [get_group, if_neg hc]

lemma mem_group_self {n : Nat} {g : Grid} {p : Point} (hc : gridGet g p ≠ 0) :
    p ∈ get_group n g p := by
  rw [get_group_eq hc]
  exact mem_compo_self _ p

lemma group_subset_color {n : Nat} {g : Grid} {p : Point}
    (hp : p ∈ boardPoints n) (hc : gridGet g p ≠ 0) :
    get_group n g p ⊆ colorCells n g (gridGet g p) := by
  rw [get_group_eq hc]
  exact compo_subset (mem_colorCells.2 ⟨hp, rfl⟩)

lemma group_mem_spec {n : Nat} {g : Grid} {p q : Point}
    (hp : p ∈ boardPoints n) (hc : gridGet g p ≠ 0)
    (hq : q ∈ get_group n g p) : q ∈ boardPoints n ∧ gridGet g q = gridGet g p := by
  have h := group_subset_color hp hc hq
  exact mem_colorCells.1 h

lemma group_eq_of_mem {n : Nat} {g : Grid} {p q : Point}
    (hp : p ∈ boardPoints n) (hc : gridGet g p ≠ 0)
    (hq : q ∈ get_group n g p) : get_group n g q = get_group n g p := by
  obtain ⟨hqbp, hqc⟩ := group_mem_spec hp hc hq
  have hcq : gridGet g q ≠ 0 := by rw [hqc]; exact hc
  rw [get_group_eq hc] at hq ⊢
  rw [get_group_eq hcq, hqc]
  exact compo_eq_of_mem (mem_colorCells.2 ⟨hp, rfl⟩) hq

lemma group_closed {n : Nat} {g : Grid} {p q r : Point}
    (hc : gridGet g p ≠ 0) (hq : q ∈ get_group n g p)
    (hr : r ∈ boardPoints n) (hrc : gridGet g r = gridGet g p)
    (hadj : adjacent q r) : r ∈ get_group n g p := by
  rw [get_group_eq hc] at hq ⊢
  exact compo_closed hq (mem_colorCells.2 ⟨hr, hrc⟩) hadj

lemma mem_check_capture {n : Nat} {g : Grid} {player : Nat} {p q : Point} :
    q ∈ check_capture n g player p ↔
      ∃ adj, adj ∈ boardPoints n ∧ adjacent p adj ∧
        gridGet g adj = 3 - player ∧
        get_liberties n g (get_group n g adj) \ {p} = ∅ ∧
        q ∈ get_group n g adj := by
  unfold check_capture
  simp only [Finset.mem_biUnion, Finset.mem_filter]
  constructor
  · rintro ⟨adj, ⟨hbp, hadj, hcol⟩, hq⟩
    by_cases hlib : get_liberties n g (get_group n g adj) \ {p} = ∅
    · rw [if_pos hlib] at hq
      exact ⟨adj, hbp, hadj, hcol, hlib, hq⟩
    · rw [if_neg hlib] at hq
      exact absurd hq (Finset.not_mem_empty q)
  · rintro ⟨adj, hbp, hadj, hcol, hlib, hq⟩
    exact ⟨adj, ⟨hbp, hadj, hcol⟩, by rw [if_pos hlib]; exact hq⟩

lemma group_start_occupied {n : Nat} {g : Grid} {adj q : Point}
    (hmem : q ∈ get_group n g adj) : gridGet g adj ≠ 0 := by
  intro hz
  rw [get_group, if_pos hz] at hmem
  exact Finset.not_mem_empty q hmem

lemma check_capture_color {n : Nat} {g : Grid} {player : Nat} {p q : Point}
    (hq : q ∈ check_capture n g player p) :
    q ∈ boardPoints n ∧ gridGet g q = 3 - player := by
  obtain ⟨adj, hbp, _, hcol, _, hmem⟩ := mem_check_capture.1 hq
  have hcadj : gridGet g adj ≠ 0 := group_start_occupied hmem
  have := group_mem_spec hbp hcadj hmem
  rw [hcol] at this
  exact this

lemma group_subset_check_capture {n : Nat} {g : Grid} {player : Nat} {p q : Point}
    (hq : q ∈ check_capture n g player p) :
    get_group n g q ⊆ check_capture n g player p := by
  obtain ⟨adj, hbp, hadj, hcol, hlib, hmem⟩ := mem_check_capture.1 hq
  have hcadj : gridGet g adj ≠ 0 := group_start_occupied hmem
  rw [group_eq_of_mem hbp hcadj hmem]
  intro x hx
  exact mem_check_capture.2 ⟨adj, hbp, hadj, hcol, hlib, hx⟩

/-! ### Game invariants -/

/-- Every in-range cell holds a `Stone` enum value. -/
def CellsOk (n : Nat) (g : Grid) : Prop :=
  ∀ p ∈ boardPoints n, gridGet g p = 0 ∨ gridGet g p = 1 ∨ gridGet g p = 2

/-- Every chain on the board has at least one liberty. -/
def NoDeadChains (n : Nat) (g : Grid) : Prop :=
  ∀ p ∈ boardPoints n, gridGet g p ≠ 0 →
    (get_liberties n g (get_group n g p)).Nonempty

/-- Inductive invariant of reachable `GoGame` states. -/
def GameInv (g : GoGame) : Prop :=
  WfGrid g.size g.board ∧ CellsOk g.size g.board ∧
    (g.current_player = 1 ∨ g.current_player = 2) ∧
    g.previous_boards.length ≤ 8 ∧ NoDeadChains g.size g.board

lemma colorCells_gridSet_self {n : Nat} {board : Grid} {p : Point} {c : Nat}
    (hwf : WfGrid n board) (hp : p ∈ boardPoints n) :
    colorCells n (gridSet board p c) c = insert p (colorCells n board c) := by
  apply Finset.ext
  intro q
  rw [mem_colorCells, Finset.mem_insert, mem_colorCells]
  by_cases hq : q = p
  · subst hq
    simp [gridGet_set_self hwf hp, hp]
  · rw [gridGet_set_ne hq]
    constructor
    · rintro ⟨h1, h2⟩; exact Or.inr ⟨h1, h2⟩
    · rintro (h | h)
      · exact absurd h hq
      · exact h

lemma colorCells_gridSet_ne {n : Nat} {board : Grid} {p : Point} {v c : Nat}
    (hwf : WfGrid n board) (hp : p ∈ boardPoints n)
    (h1 : gridGet board p ≠ c) (h2 : v ≠ c) :
    colorCells n (gridSet board p v) c = colorCells n board c := by
  apply Finset.ext
  intro q
  rw [mem_colorCells, mem_colorCells]
  by_cases hq : q = p
  · subst hq
    rw [gridGet_set_self hwf hp]
    constructor
    · rintro ⟨_, h⟩; exact absurd h h2
    · rintro ⟨_, h⟩; exact absurd h h1
  · rw [gridGet_set_ne hq]

lemma colorCells_clearPoints {n : Nat} {b : Grid} {s : Finset Point} {c : Nat}
    (hwf : WfGrid n b) (hc : c ≠ 0) :
    colorCells n (clearPoints b s) c = colorCells n b c \ s := by
  apply Finset.ext
  intro q
  rw [mem_colorCells, Finset.mem_sdiff, mem_colorCells]
  constructor
  · rintro ⟨hbp, hval⟩
    rw [gridGet_clearPoints hwf hbp] at hval
    by_cases hqs : q ∈ s
    · rw [if_pos hqs] at hval; exact absurd hval.symm hc
    · rw [if_neg hqs] at hval; exact ⟨⟨hbp, hval⟩, hqs⟩
  · rintro ⟨⟨hbp, hval⟩, hqs⟩
    refine ⟨hbp, ?_⟩
    rw [gridGet_clearPoints hwf hbp, if_neg hqs]
    exact hval

lemma get_liberties_congr {n : Nat} {b b' : Grid} {S : Finset Point}
    (h : ∀ q ∈ boardPoints n, gridGet b' q = 0 ↔ gridGet b q = 0) :
    get_liberties n b' S = get_liberties n b S := by
  apply Finset.ext
  intro q
  rw [mem_get_liberties, mem_get_liberties]
  constructor
  · rintro ⟨hbp, h0, hr⟩; exact ⟨hbp, (h q hbp).1 h0, hr⟩
  · rintro ⟨hbp, h0, hr⟩; exact ⟨hbp, (h q hbp).2 h0, hr⟩

/-- Liberty preservation: an accepted placement (one that keeps a liberty or
captures) leaves no zero-liberty chain on the resulting board. -/
lemma NDC_preserved {n : Nat} {board b1 b2 : Grid} {cap : Finset Point}
    {c : Nat} {p : Point}
    (hb1 : b1 = gridSet board p c) (hcap : cap = check_capture n b1 c p)
    (hb2 : b2 = clearPoints b1 cap)
    (hwf : WfGrid n board) (hcells : CellsOk n board)
    (hc : c = 1 ∨ c = 2) (hp : p ∈ boardPoints n)
    (hempty : gridGet board p = 0) (hndc : NoDeadChains n board)
    (hvalid : (get_liberties n b1 (get_group n b1 p)).Nonempty ∨ cap.Nonempty) :
    NoDeadChains n b2 := by
  have hwf1 : WfGrid n b1 := hb1 ▸ wf_gridSet hwf hp
  have hc0 : c ≠ 0 := by rcases hc with h | h <;> simp [h]
  have he0 : (3 - c) ≠ 0 := by rcases hc with h | h <;> simp [h]
  have hce : c ≠ 3 - c := by rcases hc with h | h <;> simp [h]
  have hb1p : gridGet b1 p = c := by rw [hb1]; exact gridGet_set_self hwf hp
  have hb1ne : ∀ r : Point, r ≠ p → gridGet b1 r = gridGet board r := by
    intro r hr; rw [hb1]; exact gridGet_set_ne hr
  have hb2get : ∀ r : Point, r ∈ boardPoints n →
      gridGet b2 r = if r ∈ cap then 0 else gridGet b1 r := by
    intro r hr; rw [hb2]; exact gridGet_clearPoints hwf1 hr
  have hcapcol : ∀ r ∈ cap, r ∈ boardPoints n ∧ gridGet b1 r = 3 - c := by
    intro r hr; rw [hcap] at hr; exact check_capture_color hr
  have hdisjc : ∀ r ∈ cap, r ∉ colorCells n b1 c := by
    intro r hr hrc
    exact hce ((mem_colorCells.1 hrc).2.symm.trans (hcapcol r hr).2)
  have hCc2 : colorCells n b2 c = colorCells n b1 c := by
    rw [hb2, colorCells_clearPoints hwf1 hc0]
    apply Finset.ext
    intro r
    rw [Finset.mem_sdiff]
    exact ⟨And.left, fun h => ⟨h, fun hrc => hdisjc r hrc h⟩⟩
  have hCe1 : colorCells n b1 (3 - c) = colorCells n board (3 - c) := by
    rw [hb1]
    exact colorCells_gridSet_ne hwf hp
      (by rw [hempty]; exact fun h => he0 h.symm) hce
  have hCe2 : colorCells n b2 (3 - c) = colorCells n b1 (3 - c) \ cap := by
    rw [hb2]; exact colorCells_clearPoints hwf1 he0
  have hCcb1 : colorCells n b1 c = insert p (colorCells n board c) := by
    rw [hb1]; exact colorCells_gridSet_self hwf hp
  have hpAc : p ∈ colorCells n b1 c := mem_colorCells.2 ⟨hp, hb1p⟩
  intro q hq hqocc
  have hqcap : q ∉ cap := by
    intro hmem
    rw [hb2get q hq, if_pos hmem] at hqocc
    exact hqocc rfl
  have hb2q : gridGet b2 q = gridGet b1 q := by rw [hb2get q hq, if_neg hqcap]
  have hb1q0 : gridGet b1 q ≠ 0 := by rw [← hb2q]; exact hqocc
  have hq1v : gridGet b1 q = c ∨ gridGet b1 q = 3 - c := by
    by_cases hqp : q = p
    · left; rw [hqp, hb1p]
    · have hval := hcells q hq
      rw [← hb1ne q hqp] at hval
      rcases hval with h | h | h
      · exact absurd h hb1q0
      · rcases hc with hcv | hcv
        · left; rw [h, hcv]
        · right; rw [h, hcv]
      · rcases hc with hcv | hcv
        · right; rw [h, hcv]
        · left; rw [h, hcv]
  rcases hq1v with hvc | hve
  · -- q belongs to a chain of the mover's color
    have hqAc : q ∈ colorCells n b1 c := mem_colorCells.2 ⟨hq, hvc⟩
    have hb2qc : gridGet b2 q = c := by rw [hb2q, hvc]
    have hchain2 : get_group n b2 q = compo (colorCells n b1 c) q := by
      rw [get_group_eq (by rw [hb2qc]; exact hc0), hb2qc, hCc2]
    by_cases hpS : p ∈ compo (colorCells n b1 c) q
    · -- the chain contains the freshly placed stone
      have hSpq : compo (colorCells n b1 c) p = compo (colorCells n b1 c) q :=
        compo_eq_of_mem hqAc hpS
      rcases hvalid with hlib | hcapne
      · have hgp : get_group n b1 p = compo (colorCells n b1 c) p := by
          rw [get_group_eq (by rw [hb1p]; exact hc0), hb1p]
        rw [hgp] at hlib
        obtain ⟨l, hl⟩ := hlib
        obtain ⟨hlbp, hl0, r, hrS, hradj⟩ := mem_get_liberties.1 hl
        refine ⟨l, mem_get_liberties.2 ⟨hlbp, ?_, ⟨r, ?_, hradj⟩⟩⟩
        · rw [hb2get l hlbp]
          by_cases hcs : l ∈ cap
          · rw [if_pos hcs]
          · rw [if_neg hcs]; exact hl0
        · rw [hchain2, ← hSpq]; exact hrS
      · obtain ⟨y, hy⟩ := hcapne
        rw [hcap] at hy
        obtain ⟨adj, hadjbp, hpadj, hadjcol, hlibcond, hymem⟩ :=
          mem_check_capture.1 hy
        have hadjocc : gridGet b1 adj ≠ 0 := group_start_occupied hymem
        have hadjcap : adj ∈ cap := by
          rw [hcap]
          exact mem_check_capture.2
            ⟨adj, hadjbp, hpadj, hadjcol, hlibcond, mem_group_self hadjocc⟩
        refine ⟨adj, mem_get_liberties.2 ⟨hadjbp, ?_, ⟨p, ?_, hpadj⟩⟩⟩
        · rw [hb2get adj hadjbp, if_pos hadjcap]
        · rw [hchain2]; exact hpS
    · -- an old chain of the mover's color, untouched by the move
      have hqp : q ≠ p := by
        intro h
        apply hpS
        rw [← h]
        exact mem_compo_self _ q
      have hbq : gridGet board q = c := by rw [← hb1ne q hqp]; exact hvc
      have hBsub : colorCells n board c ⊆ colorCells n b1 c := by
        rw [hCcb1]; exact Finset.subset_insert _ _
      have hsubB : compo (colorCells n b1 c) q ⊆ colorCells n board c := by
        intro r hr
        have hrA := compo_subset hqAc hr
        have hrp : r ≠ p := fun h => hpS (h ▸ hr)
        obtain ⟨hrbp, hrc⟩ := mem_colorCells.1 hrA
        exact mem_colorCells.2 ⟨hrbp, by rw [← hb1ne r hrp]; exact hrc⟩
      have hSold : compo (colorCells n board c) q = compo (colorCells n b1 c) q :=
        compo_congr hBsub hsubB
      have hgold : get_group n board q = compo (colorCells n board c) q := by
        rw [get_group_eq (by rw [hbq]; exact hc0), hbq]
      obtain ⟨l, hl⟩ := hndc q hq (by rw [hbq]; exact hc0)
      rw [hgold] at hl
      obtain ⟨hlbp, hl0, r, hrS, hradj⟩ := mem_get_liberties.1 hl
      have hrS1 : r ∈ compo (colorCells n b1 c) q := by rw [← hSold]; exact hrS
      have hlp : l ≠ p := by
        intro h
        subst h
        exact hpS (compo_closed hrS1 hpAc hradj)
      refine ⟨l, mem_get_liberties.2 ⟨hlbp, ?_, ⟨r, ?_, hradj⟩⟩⟩
      · rw [hb2get l hlbp]
        by_cases hcs : l ∈ cap
        · rw [if_pos hcs]
        · rw [if_neg hcs, hb1ne l hlp]; exact hl0
      · rw [hchain2]; exact hrS1
  · -- q belongs to a surviving enemy chain
    have hqp : q ≠ p := by
      intro h
      subst h
      rw [hb1p] at hve
      exact hce hve
    have hbqe : gridGet board q = 3 - c := by rw [← hb1ne q hqp]; exact hve
    have hqAe : q ∈ colorCells n b1 (3 - c) := mem_colorCells.2 ⟨hq, hve⟩
    have hgoldq : get_group n board q = compo (colorCells n b1 (3 - c)) q := by
      rw [get_group_eq (by rw [hbqe]; exact he0), hbqe, ← hCe1]
    have hdisj : ∀ y ∈ compo (colorCells n b1 (3 - c)) q, y ∉ cap := by
      intro y hyS0 hycap
      rw [hcap] at hycap
      obtain ⟨adj, hadjbp, hpadj, hadjcol, hlibcond, hymem⟩ :=
        mem_check_capture.1 hycap
      have hadjocc : gridGet b1 adj ≠ 0 := group_start_occupied hymem
      have hgadj : get_group n b1 adj = compo (colorCells n b1 (3 - c)) adj := by
        rw [get_group_eq hadjocc, hadjcol]
      rw [hgadj] at hymem
      have hadjAe : adj ∈ colorCells n b1 (3 - c) :=
        mem_colorCells.2 ⟨hadjbp, hadjcol⟩
      have e1 : compo (colorCells n b1 (3 - c)) y =
          compo (colorCells n b1 (3 - c)) adj := compo_eq_of_mem hadjAe hymem
      have e2 : compo (colorCells n b1 (3 - c)) y =
          compo (colorCells n b1 (3 - c)) q := compo_eq_of_mem hqAe hyS0
      have hqin : q ∈ compo (colorCells n b1 (3 - c)) adj := by
        rw [← e1, e2]
        exact mem_compo_self _ q
      have : q ∈ cap := by
        rw [hcap]
        exact mem_check_capture.2
          ⟨adj, hadjbp, hpadj, hadjcol, hlibcond, by rw [hgadj]; exact hqin⟩
      exact hqcap this
    have hb2qe : gridGet b2 q = 3 - c := by rw [hb2q]; exact hve
    have hchain2 : get_group n b2 q = compo (colorCells n b1 (3 - c)) q := by
      rw [get_group_eq (by rw [hb2qe]; exact he0), hb2qe, hCe2]
      refine compo_congr Finset.sdiff_subset ?_
      intro r hr
      exact Finset.mem_sdiff.2 ⟨compo_subset hqAe hr, hdisj r hr⟩
    by_cases hcond :
        get_liberties n b1 (compo (colorCells n b1 (3 - c)) q) \ {p} = ∅
    · -- then the whole chain would have been captured: contradiction
      exfalso
      obtain ⟨l, hl⟩ := hndc q hq (by rw [hbqe]; exact he0)
      rw [hgoldq] at hl
      obtain ⟨hlbp, hl0board, r, hrS, hradj⟩ := mem_get_liberties.1 hl
      have hlp : l = p := by
        by_contra hne
        have hlb1 : gridGet b1 l = 0 := by rw [hb1ne l hne]; exact hl0board
        have hmem : l ∈ get_liberties n b1
            (compo (colorCells n b1 (3 - c)) q) \ {p} :=
          Finset.mem_sdiff.2
            ⟨mem_get_liberties.2 ⟨hlbp, hlb1, r, hrS, hradj⟩, by simp [hne]⟩
        rw [hcond] at hmem
        exact Finset.not_mem_empty l hmem
      rw [hlp] at hradj
      obtain ⟨hrbp, hre⟩ := mem_colorCells.1 (compo_subset hqAe hrS)
      have hrgroup : get_group n b1 r = compo (colorCells n b1 (3 - c)) r := by
        rw [get_group_eq (by rw [hre]; exact he0), hre]
      have hrcompo : compo (colorCells n b1 (3 - c)) r =
          compo (colorCells n b1 (3 - c)) q := compo_eq_of_mem hqAe hrS
      have hqin : q ∈ get_group n b1 r := by
        rw [hrgroup, hrcompo]
        exact mem_compo_self _ q
      have hlibr : get_liberties n b1 (get_group n b1 r) \ {p} = ∅ := by
        rw [hrgroup, hrcompo]
        exact hcond
      have : q ∈ cap := by
        rw [hcap]
        exact mem_check_capture.2 ⟨r, hrbp, adjacent_symm hradj, hre, hlibr, hqin⟩
      exact hqcap this
    · -- the chain keeps a liberty other than p
      obtain ⟨l, hl⟩ := Finset.nonempty_iff_ne_empty.2 hcond
      obtain ⟨hllib, hlp⟩ := Finset.mem_sdiff.1 hl
      obtain ⟨hlbp, hl0, r, hrS, hradj⟩ := mem_get_liberties.1 hllib
      refine ⟨l, mem_get_liberties.2 ⟨hlbp, ?_, ⟨r, ?_, hradj⟩⟩⟩
      · rw [hb2get l hlbp]
        by_cases hcs : l ∈ cap
        · rw [if_pos hcs]
        · rw [if_neg hcs]; exact hl0
      · rw [hchain2]; exact hrS

/-- Unpacking a successful `is_valid_move` on a coordinate move. -/
lemma is_valid_move_true {g : GoGame} {x y : Int}
    (h : is_valid_move g (MoveArg.coord x y) = true) :
    (0 ≤ x ∧ x < (g.size : Int) ∧ 0 ≤ y ∧ y < (g.size : Int)) ∧
    gridGet g.board (x.toNat, y.toNat) = 0 ∧
    is_ko_violation g (x.toNat, y.toNat) = false ∧
    ((get_liberties g.size
        (gridSet g.board (x.toNat, y.toNat) g.current_player)
        (get_group g.size
          (gridSet g.board (x.toNat, y.toNat) g.current_player)
          (x.toNat, y.toNat))).Nonempty ∨
      (check_capture g.size
        (gridSet g.board (x.toNat, y.toNat) g.current_player)
        g.current_player (x.toNat, y.toNat)).Nonempty) := by
  simp only [is_valid_move] at h
  by_cases hr : 0 ≤ x ∧ x < (g.size : Int) ∧ 0 ≤ y ∧ y < (g.size : Int)
  · rw [if_pos hr] at h
    by_cases h1 : gridGet g.board (x.toNat, y.toNat) ≠ 0
    · rw [if_pos h1] at h
      exact absurd h (by simp)
    · rw [if_neg h1] at h
      push_neg at h1
      by_cases h2 : is_ko_violation g (x.toNat, y.toNat) = true
      · rw [if_pos h2] at h
        exact absurd h (by simp)
      · rw [if_neg h2] at h
        refine ⟨hr, h1, by simpa using h2, ?_⟩
        rw [Bool.or_eq_true] at h
        rcases h with h3 | h3
        · exact Or.inl (Finset.nonempty_iff_ne_empty.2 (of_decide_eq_true h3))
        · exact Or.inr (Finset.nonempty_iff_ne_empty.2 (of_decide_eq_true h3))
  · rw [if_neg hr] at h
    exact absurd h (by simp)

/-- One `make_move` call preserves the game invariant. -/
lemma inv_step {g : GoGame} (m : MoveArg) (h : GameInv g) :
    GameInv (make_move g m).2 := by
  obtain ⟨hwf, hcells, hplayer, hhist, hndc⟩ := h
  have hswitch : switchPlayer g.current_player = 1 ∨
      switchPlayer g.current_player = 2 := by
    unfold switchPlayer
    by_cases h1 : g.current_player = 1
    · rw [if_pos h1]; exact Or.inr rfl
    · rw [if_neg h1]; exact Or.inl rfl
  by_cases hstate : g.state = GState.FINISHED
  · rw [make_move.eq_def, if_pos hstate]
    exact ⟨hwf, hcells, hplayer, hhist, hndc⟩
  · cases m with
    | pass =>
        simp only [make_move]
        rw [if_neg hstate]
        exact ⟨hwf, hcells, hswitch, hhist, hndc⟩
    | malformed =>
        simp only [make_move]
        rw [if_neg hstate]
        exact ⟨hwf, hcells, hplayer, hhist, hndc⟩
    | coord x y =>
        simp only [make_move]
        rw [if_neg hstate]
        by_cases hv : is_valid_move g (MoveArg.coord x y) = true
        · obtain ⟨hr, hempty, _, hvalid⟩ := is_valid_move_true hv
          rw [if_pos hr, if_pos hv]
          obtain ⟨h1, h2, h3, h4⟩ := hr
          have hp : ((x.toNat, y.toNat) : Point) ∈ boardPoints g.size :=
            mem_boardPoints.2 ⟨by omega, by omega⟩
          have hwf1 : WfGrid g.size
              (gridSet g.board (x.toNat, y.toNat) g.current_player) :=
            wf_gridSet hwf hp
          refine ⟨wf_clearPoints hwf1, ?_, hswitch, ?_, ?_⟩
          · -- cell values remain 0/1/2
            intro r hrbp
            show gridGet (clearPoints _ _) r = 0 ∨ _ ∨ _
            rw [gridGet_clearPoints hwf1 hrbp]
            by_cases hrc : r ∈ check_capture g.size
                (gridSet g.board (x.toNat, y.toNat) g.current_player)
                g.current_player (x.toNat, y.toNat)
            · rw [if_pos hrc]; exact Or.inl rfl
            · rw [if_neg hrc]
              by_cases hrp : r = ((x.toNat, y.toNat) : Point)
              · rw [hrp, gridGet_set_self hwf hp]
                rcases hplayer with hc | hc
                · rw [hc]; exact Or.inr (Or.inl rfl)
                · rw [hc]; exact Or.inr (Or.inr rfl)
              · rw [gridGet_set_ne hrp]
                exact hcells r hrbp
          · -- bounded history
            show (if 8 < (g.previous_boards ++ [g.board]).length
                then (g.previous_boards ++ [g.board]).tail
                else g.previous_boards ++ [g.board]).length ≤ 8
            by_cases hl : 8 < (g.previous_boards ++ [g.board]).length
            · rw [if_pos hl, List.length_tail]
              simp only [List.length_append, List.length_cons,
                List.length_nil] at hl ⊢
              omega
            · rw [if_neg hl]
              simp only [List.length_append, List.length_cons,
                List.length_nil] at hl ⊢
              omega
          · -- no dead chains on the new board
            exact NDC_preserved rfl rfl rfl hwf hcells hplayer hp hempty hndc
              hvalid
        · rw [if_neg hv]
          by_cases hr : 0 ≤ x ∧ x < (g.size : Int) ∧ 0 ≤ y ∧ y < (g.size : Int)
          · rw [if_pos hr]
            exact ⟨hwf, hcells, hplayer, hhist, hndc⟩
          · rw [if_neg hr]
            exact ⟨hwf, hcells, hplayer, hhist, hndc⟩

/-- Every reachable state satisfies the game invariant. -/
lemma reachable_inv {g : GoGame} (h : Reachable g) : GameInv g := by
  induction h with
  | init n =>
      refine ⟨wf_init n, ?_, Or.inl rfl, ?_, ?_⟩
      · intro p _
        exact Or.inl (gridGet_init n p)
      · simp [initGame]
      · intro p _ hocc
        exact absurd (gridGet_init n p) hocc
  | step g m _ ih => exact inv_step m ih

/-! ### Territory scan correctness -/

/-- Specification-side: the maximal 4-connected empty region containing `p`. -/
def emptyRegion (n : Nat) (g : Grid) (p : Point) : Finset Point :=
  compo (colorCells n g 0) p

/-- Specification-side: the empty in-range points lying in a region whose
distinct bordering stone colors are exactly `{c}`. -/
def attributedPoints (n : Nat) (g : Grid) (c : Nat) : Finset Point :=
  (boardPoints n).filter
    (fun p => gridGet g p = 0 ∧ borderColors n g (emptyRegion n g p) = {c})

lemma mem_rowMajorPoints {n : Nat} {p : Point} :
    p ∈ rowMajorPoints n ↔ p.1 < n ∧ p.2 < n := by
  simp only [rowMajorPoints, List.mem_flatMap, List.mem_map, List.mem_range]
  constructor
  · rintro ⟨i, hi, j, hj, rfl⟩
    exact ⟨hi, hj⟩
  · rintro ⟨h1, h2⟩
    exact ⟨p.1, h1, p.2, h2, rfl⟩

/-- Invariant of the `calculate_territory` scan state. -/
def TInv (n : Nat) (b : Grid) (st : Finset Point × Nat × Nat) : Prop :=
  (∀ x ∈ st.1, gridGet b x = 0 ∧ emptyRegion n b x ⊆ st.1) ∧
  st.1 ⊆ boardPoints n ∧
  st.2.1 = (st.1.filter
    (fun x => borderColors n b (emptyRegion n b x) = {1})).card ∧
  st.2.2 = (st.1.filter
    (fun x => borderColors n b (emptyRegion n b x) = {2})).card

lemma territory_step_spec {n : Nat} {b : Grid} {st : Finset Point × Nat × Nat}
    {r : Point} (hr : r ∈ boardPoints n) (h : TInv n b st) :
    TInv n b (territoryStep n b st r) ∧
    ∀ x, (x ∈ (territoryStep n b st r).1 ↔
      x ∈ st.1 ∨ (gridGet b r = 0 ∧ x ∈ emptyRegion n b r)) := by
  obtain ⟨V, tb, tw⟩ := st
  obtain ⟨hinv, hbp, htb, htw⟩ := h
  dsimp only at hinv hbp htb htw
  by_cases hcnd : gridGet b r = 0 ∧ r ∉ V
  · obtain ⟨hr0, hrV⟩ := hcnd
    have hrA : r ∈ colorCells n b 0 := mem_colorCells.2 ⟨hr, hr0⟩
    have hdisj : ∀ x ∈ emptyRegion n b r, x ∉ V := by
      intro x hx hxV
      have h1 : emptyRegion n b x = emptyRegion n b r := compo_eq_of_mem hrA hx
      have h2 : r ∈ emptyRegion n b x := by
        rw [h1]
        exact mem_compo_self _ r
      exact hrV ((hinv x hxV).2 h2)
    have hregion : compo (colorCells n b 0 \ V) r = emptyRegion n b r := by
      refine compo_congr Finset.sdiff_subset ?_
      intro x hx
      exact Finset.mem_sdiff.2 ⟨compo_subset hrA hx, hdisj x hx⟩
    have hregsub : emptyRegion n b r ⊆ colorCells n b 0 := compo_subset hrA
    have hregbp : emptyRegion n b r ⊆ boardPoints n :=
      fun x hx => (mem_colorCells.1 (hregsub hx)).1
    have hregempty : ∀ x ∈ emptyRegion n b r, gridGet b x = 0 :=
      fun x hx => (mem_colorCells.1 (hregsub hx)).2
    have hregeq : ∀ x ∈ emptyRegion n b r,
        emptyRegion n b x = emptyRegion n b r :=
      fun x hx => compo_eq_of_mem hrA hx
    have hdisjVR : Disjoint V (emptyRegion n b r) := by
      rw [Finset.disjoint_right]
      intro a ha
      exact hdisj a ha
    have hinv' : ∀ x ∈ V ∪ emptyRegion n b r,
        gridGet b x = 0 ∧ emptyRegion n b x ⊆ V ∪ emptyRegion n b r := by
      intro x hx
      rcases Finset.mem_union.1 hx with hx | hx
      · exact ⟨(hinv x hx).1, ((hinv x hx).2).trans Finset.subset_union_left⟩
      · refine ⟨hregempty x hx, ?_⟩
        rw [hregeq x hx]
        exact Finset.subset_union_right
    have hbp' : V ∪ emptyRegion n b r ⊆ boardPoints n :=
      Finset.union_subset hbp hregbp
    have key : ∀ c : Nat,
        ((V ∪ emptyRegion n b r).filter
          (fun x => borderColors n b (emptyRegion n b x) = {c})).card
        = (V.filter
            (fun x => borderColors n b (emptyRegion n b x) = {c})).card
          + (if borderColors n b (emptyRegion n b r) = {c}
             then (emptyRegion n b r).card else 0) := by
      intro c
      rw [Finset.filter_union,
        Finset.card_union_of_disjoint (Finset.disjoint_filter_filter hdisjVR)]
      congr 1
      by_cases hbnd : borderColors n b (emptyRegion n b r) = {c}
      · rw [if_pos hbnd, Finset.filter_true_of_mem]
        intro x hx
        rw [hregeq x hx]
        exact hbnd
      · rw [if_neg hbnd, Finset.filter_false_of_mem, Finset.card_empty]
        intro x hx
        rw [hregeq x hx]
        exact hbnd
    have hstep : territoryStep n b (V, tb, tw) r =
        (V ∪ emptyRegion n b r,
         tb + (if borderColors n b (emptyRegion n b r) = {1}
               then (emptyRegion n b r).card else 0),
         tw + (if borderColors n b (emptyRegion n b r) = {2}
               then (emptyRegion n b r).card else 0)) := by
      rw [territoryStep, if_pos ⟨hr0, hrV⟩, hregion]
      by_cases hb1 : borderColors n b (emptyRegion n b r) = {1}
      · rw [if_pos hb1, if_pos hb1,
          if_neg (by rw [hb1]; intro hcontra; simp at hcontra)]
        simp
      · rw [if_neg hb1, if_neg hb1]
        by_cases hb2 : borderColors n b (emptyRegion n b r) = {2}
        · rw [if_pos hb2, if_pos hb2]
          simp
        · rw [if_neg hb2, if_neg hb2]
          simp
    rw [hstep]
    refine ⟨⟨hinv', hbp', ?_, ?_⟩, ?_⟩
    · show tb + _ = _
      rw [key 1, htb]
    · show tw + _ = _
      rw [key 2, htw]
    · intro x
      show x ∈ V ∪ emptyRegion n b r ↔ _
      rw [Finset.mem_union]
      constructor
      · rintro (hx | hx)
        · exact Or.inl hx
        · exact Or.inr ⟨hr0, hx⟩
      · rintro (hx | ⟨_, hx⟩)
        · exact Or.inl hx
        · exact Or.inr hx
  · have hstep : territoryStep n b (V, tb, tw) r = (V, tb, tw) := by
      rw [territoryStep, if_neg hcnd]
    rw [hstep]
    refine ⟨⟨hinv, hbp, htb, htw⟩, ?_⟩
    intro x
    constructor
    · exact Or.inl
    · rintro (hx | ⟨h0, hx⟩)
      · exact hx
      · push_neg at hcnd
        exact (hinv r (hcnd h0)).2 hx

lemma territory_foldl {n : Nat} {b : Grid} (M : List Point)
    (hM : ∀ r ∈ M, r ∈ boardPoints n) :
    ∀ st, TInv n b st →
      TInv n b (M.foldl (territoryStep n b) st) ∧
      ∀ x, (x ∈ (M.foldl (territoryStep n b) st).1 ↔
        x ∈ st.1 ∨ ∃ q ∈ M, gridGet b q = 0 ∧ x ∈ emptyRegion n b q) := by
  induction M with
  | nil =>
      intro st h
      refine ⟨h, ?_⟩
      intro x
      simp
  | cons r M ih =>
      intro st h
      have hr : r ∈ boardPoints n := hM r (List.mem_cons_self r M)
      have hM' : ∀ q ∈ M, q ∈ boardPoints n :=
        fun q hq => hM q (List.mem_cons_of_mem r hq)
      obtain ⟨hstep, hstepiff⟩ := territory_step_spec hr h
      obtain ⟨hfold, hfoldiff⟩ := ih hM' (territoryStep n b st r) hstep
      refine ⟨hfold, ?_⟩
      intro x
      rw [List.foldl_cons, hfoldiff x]
      constructor
      · rintro (hx | ⟨q, hq, hq0, hqx⟩)
        · rcases (hstepiff x).1 hx with hx | ⟨h0, hx⟩
          · exact Or.inl hx
          · exact Or.inr ⟨r, List.mem_cons_self r M, h0, hx⟩
        · exact Or.inr ⟨q, List.mem_cons_of_mem r hq, hq0, hqx⟩
      · rintro (hx | ⟨q, hq, hq0, hqx⟩)
        · exact Or.inl ((hstepiff x).2 (Or.inl hx))
        · rcases List.mem_cons.1 hq with rfl | hq
          · exact Or.inl ((hstepiff x).2 (Or.inr ⟨hq0, hqx⟩))
          · exact Or.inr ⟨q, hq, hq0, hqx⟩

/-- C6: the scorer partitions the empty cells into maximal 4-connected
regions (each empty cell is counted through its region exactly once by the
shared visited set), attributes a region to a color exactly when the
distinct stone colors bordering it are that single color, and the final
score per color is the total size of its attributed regions plus its
running captured-stone count. -/
theorem territory_score_spec (g : GoGame) :
    calculate_territory g =
      ((attributedPoints g.size g.board 1).card + g.captured_black,
       (attributedPoints g.size g.board 2).card + g.captured_white) := by
  have hM : ∀ r ∈ rowMajorPoints g.size, r ∈ boardPoints g.size := by
    intro r hr
    rw [mem_rowMajorPoints] at hr
    exact mem_boardPoints.2 hr
  have hinit : TInv g.size g.board ((∅ : Finset Point), 0, 0) := by
    refine ⟨?_, ?_, ?_, ?_⟩ <;> simp
  obtain ⟨⟨hfinv, hfbp, hftb, hftw⟩, hfiff⟩ :=
    territory_foldl (rowMajorPoints g.size) hM (∅, 0, 0) hinit
  have hVall : ((rowMajorPoints g.size).foldl
      (territoryStep g.size g.board) (∅, 0, 0)).1 =
      colorCells g.size g.board 0 := by
    apply Finset.ext
    intro x
    rw [hfiff x, mem_colorCells]
    constructor
    · rintro (hx | ⟨q, hqM, hq0, hqx⟩)
      · exact absurd hx (Finset.not_mem_empty x)
      · have hqA : q ∈ colorCells g.size g.board 0 :=
          mem_colorCells.2 ⟨hM q hqM, hq0⟩
        exact mem_colorCells.1 (compo_subset hqA hqx)
    · rintro ⟨hxbp, hx0⟩
      refine Or.inr ⟨x, ?_, hx0, mem_compo_self _ x⟩
      rw [mem_rowMajorPoints]
      exact mem_boardPoints.1 hxbp
  have hattr : ∀ c : Nat,
      (colorCells g.size g.board 0).filter
        (fun x => borderColors g.size g.board
          (emptyRegion g.size g.board x) = {c}) =
      attributedPoints g.size g.board c := by
    intro c
    rw [attributedPoints, colorCells, Finset.filter_filter]
  rw [calculate_territory]
  rw [hftb, hftw, hVall, hattr 1, hattr 2]

/-! ### Helper unfoldings for coordinate moves -/

lemma coord_cast_eq (p : Point) :
    ((((p.1 : Int)).toNat, ((p.2 : Int)).toNat) : Point) = p := by
  simp

lemma coord_range_holds {n : Nat} {p : Point} (hp : p ∈ boardPoints n) :
    0 ≤ (p.1 : Int) ∧ (p.1 : Int) < (n : Int) ∧
      0 ≤ (p.2 : Int) ∧ (p.2 : Int) < (n : Int) := by
  obtain ⟨h1, h2⟩ := mem_boardPoints.1 hp
  refine ⟨Int.natCast_nonneg _, ?_, Int.natCast_nonneg _, ?_⟩
  · exact_mod_cast h1
  · exact_mod_cast h2

lemma is_valid_move_coord_eq (g : GoGame) (p : Point)
    (hp : p ∈ boardPoints g.size) :
    is_valid_move g (MoveArg.coord (p.1 : Int) (p.2 : Int)) =
      (if gridGet g.board p ≠ 0 then false
       else if is_ko_violation g p then false
       else
         decide (get_liberties g.size (gridSet g.board p g.current_player)
           (get_group g.size (gridSet g.board p g.current_player) p) ≠ ∅) ||
           decide (check_capture g.size (gridSet g.board p g.current_player)
             g.current_player p ≠ ∅)) := by
  simp only [is_valid_move, coord_cast_eq]
  rw [if_pos (coord_range_holds hp)]

lemma make_move_finished {g : GoGame} (m : MoveArg)
    (h : g.state = GState.FINISHED) : make_move g m = (false, g) := by
  rw [make_move.eq_def, if_pos h]

lemma make_move_coord_eq (g : GoGame) (p : Point)
    (hp : p ∈ boardPoints g.size) (hs : g.state ≠ GState.FINISHED) :
    make_move g (MoveArg.coord (p.1 : Int) (p.2 : Int)) =
      (if is_valid_move g (MoveArg.coord (p.1 : Int) (p.2 : Int)) then
        (true, { g with
          board := clearPoints (gridSet g.board p g.current_player)
            (check_capture g.size (gridSet g.board p g.current_player)
              g.current_player p),
          previous_boards :=
            if 8 < (g.previous_boards ++ [g.board]).length
            then (g.previous_boards ++ [g.board]).tail
            else g.previous_boards ++ [g.board],
          consecutive_passes := 0,
          captured_black := g.captured_black +
            (if g.current_player = 1 then
              (check_capture g.size (gridSet g.board p g.current_player)
                g.current_player p).card
             else 0),
          captured_white := g.captured_white +
            (if g.current_player = 2 then
              (check_capture g.size (gridSet g.board p g.current_player)
                g.current_player p).card
             else 0),
          move_history := g.move_history ++
            [MoveArg.coord (p.1 : Int) (p.2 : Int)],
          last_move := some (MoveArg.coord (p.1 : Int) (p.2 : Int)),
          current_player := switchPlayer g.current_player })
       else (false, g)) := by
  simp only [make_move, coord_cast_eq]
  rw [if_neg hs, if_pos (coord_range_holds hp)]

/-! ### Claim theorems -/

/-- C4: whenever `make_move` rejects a move (any argument: coordinate, pass
or malformed), the returned state is the argument state itself — grid, side
to move, captured counts, history snapshots and consecutive-pass counter are
all unchanged; the speculative placements inside the validation helpers are
fully reverted in the source and therefore invisible in the embedding. -/
theorem make_move_rejected_unchanged (g : GoGame) (m : MoveArg)
    (h : (make_move g m).1 = false) : (make_move g m).2 = g := by
  by_cases hs : g.state = GState.FINISHED
  · rw [make_move_finished m hs]
  · cases m with
    | pass =>
        simp only [make_move] at h
        rw [if_neg hs] at h
        exact absurd h (by simp)
    | malformed =>
        simp only [make_move]
        rw [if_neg hs]
    | coord x y =>
        simp only [make_move] at h ⊢
        rw [if_neg hs] at h ⊢
        by_cases hr : 0 ≤ x ∧ x < (g.size : Int) ∧ 0 ≤ y ∧ y < (g.size : Int)
        · rw [if_pos hr] at h ⊢
          by_cases hv : is_valid_move g (MoveArg.coord x y) = true
          · rw [if_pos hv] at h
            exact absurd h (by simp)
          · rw [if_neg hv]
        · rw [if_neg hr]

theorem make_move_rejected_unchanged_witness :
    (make_move (initGame 2) MoveArg.malformed).2 = initGame 2 :=
  make_move_rejected_unchanged (initGame 2) MoveArg.malformed (by decide)

/-- C2: on an empty in-range point that is not a ko violation, the move is
judged legal exactly when, on the board with the mover's stone placed, the
mover's chain has at least one liberty or at least one enemy chain is
captured; a placement that captures nothing and leaves its own chain
without liberties is rejected (suicide), on every board size ≥ 2. -/
theorem suicide_rule_characterization (g : GoGame) (_hsz : 2 ≤ g.size)
    (p : Point) (hp : p ∈ boardPoints g.size)
    (hempty : gridGet g.board p = 0)
    (hko : is_ko_violation g p = false) :
    is_valid_move g (MoveArg.coord (p.1 : Int) (p.2 : Int)) = true ↔
      ((get_liberties g.size (gridSet g.board p g.current_player)
          (get_group g.size (gridSet g.board p g.current_player) p)).Nonempty ∨
        (check_capture g.size (gridSet g.board p g.current_player)
          g.current_player p).Nonempty) := by
  rw [is_valid_move_coord_eq g p hp, if_neg (fun hcon => hcon hempty),
    if_neg (by rw [hko]; simp)]
  simp [Finset.nonempty_iff_ne_empty]

theorem suicide_rule_characterization_witness :
    is_valid_move (initGame 2) (MoveArg.coord 0 0) = true ↔
      ((get_liberties (initGame 2).size
          (gridSet (initGame 2).board (0, 0) (initGame 2).current_player)
          (get_group (initGame 2).size
            (gridSet (initGame 2).board (0, 0) (initGame 2).current_player)
            (0, 0))).Nonempty ∨
        (check_capture (initGame 2).size
          (gridSet (initGame 2).board (0, 0) (initGame 2).current_player)
          (initGame 2).current_player (0, 0)).Nonempty) :=
  suicide_rule_characterization (initGame 2) (by decide) (0, 0) (by decide)
    (by decide) (by decide)

lemma tail_append_singleton {α : Type} (l : List α) (a : α) (h : l ≠ []) :
    (l ++ [a]).tail = l.tail ++ [a] := by
  cases l with
  | nil => exact absurd rfl h
  | cons x t => rfl

/-- C1: with a non-empty history and an empty in-range target, the ko check
equals a byte-for-byte membership test of the speculative post-capture grid
in the bounded history; a ko violation makes `make_move` reject with the
state unchanged; a reachable state holds at most 8 snapshots; and an
accepted placement pushes the pre-move grid, evicting the oldest snapshot
exactly when the window already holds 8 (so an older repetition is accepted
again). -/
theorem ko_check_spec (g : GoGame) (hR : Reachable g) (p : Point)
    (hp : p ∈ boardPoints g.size) (hne : g.previous_boards ≠ [])
    (hempty : gridGet g.board p = 0) :
    (is_ko_violation g p = true ↔
      clearPoints (gridSet g.board p g.current_player)
        (check_capture g.size (gridSet g.board p g.current_player)
          g.current_player p) ∈ g.previous_boards) ∧
    (is_ko_violation g p = true →
      make_move g (MoveArg.coord (p.1 : Int) (p.2 : Int)) = (false, g)) ∧
    g.previous_boards.length ≤ 8 ∧
    ((make_move g (MoveArg.coord (p.1 : Int) (p.2 : Int))).1 = true →
      (make_move g (MoveArg.coord (p.1 : Int) (p.2 : Int))).2.previous_boards =
        if g.previous_boards.length = 8
        then g.previous_boards.tail ++ [g.board]
        else g.previous_boards ++ [g.board]) := by
  have hlen : g.previous_boards.length ≤ 8 := (reachable_inv hR).2.2.2.1
  refine ⟨?_, ?_, hlen, ?_⟩
  · rw [is_ko_violation, if_neg hne, speculativeResult]
    simp
  · intro hko
    by_cases hs : g.state = GState.FINISHED
    · exact make_move_finished _ hs
    · have hvf : is_valid_move g (MoveArg.coord (p.1 : Int) (p.2 : Int))
          = false := by
        rw [is_valid_move_coord_eq g p hp, if_neg (fun hcon => hcon hempty),
          if_pos hko]
      rw [make_move_coord_eq g p hp hs, hvf]
      simp
  · intro hacc
    by_cases hs : g.state = GState.FINISHED
    · rw [make_move_finished _ hs] at hacc
      exact absurd hacc (by simp)
    · rw [make_move_coord_eq g p hp hs] at hacc ⊢
      by_cases hv : is_valid_move g (MoveArg.coord (p.1 : Int) (p.2 : Int))
          = true
      · rw [if_pos hv]
        show (if 8 < (g.previous_boards ++ [g.board]).length
            then (g.previous_boards ++ [g.board]).tail
            else g.previous_boards ++ [g.board]) = _
        rw [List.length_append]
        by_cases hl : g.previous_boards.length = 8
        · rw [if_pos (by simp [hl]), if_pos hl,
            tail_append_singleton _ _ hne]
        · rw [if_neg (by simp; omega), if_neg hl]
      · rw [if_neg hv] at hacc
        exact absurd hacc (by simp)

/-- A one-move game used to instantiate reachability-based theorems. -/
def witnessGame1 : GoGame := (make_move (initGame 2) (MoveArg.coord 0 0)).2

theorem ko_check_spec_witness :
    (is_ko_violation witnessGame1 (0, 1) = true ↔
      clearPoints (gridSet witnessGame1.board (0, 1)
          witnessGame1.current_player)
        (check_capture witnessGame1.size
          (gridSet witnessGame1.board (0, 1) witnessGame1.current_player)
          witnessGame1.current_player (0, 1)) ∈
        witnessGame1.previous_boards) ∧
    (is_ko_violation witnessGame1 (0, 1) = true →
      make_move witnessGame1 (MoveArg.coord 0 1) = (false, witnessGame1)) ∧
    witnessGame1.previous_boards.length ≤ 8 ∧
    ((make_move witnessGame1 (MoveArg.coord 0 1)).1 = true →
      (make_move witnessGame1 (MoveArg.coord 0 1)).2.previous_boards =
        if witnessGame1.previous_boards.length = 8
        then witnessGame1.previous_boards.tail ++ [witnessGame1.board]
        else witnessGame1.previous_boards ++ [witnessGame1.board]) :=
  ko_check_spec witnessGame1
    (Reachable.step (initGame 2) (MoveArg.coord 0 0) (Reachable.init 2))
    (0, 1) (by decide) (by decide) (by decide)

/-- C3: the capture set is exactly the union of the chains of those
enemy-colored orthogonal neighbors of `p` whose liberty set minus `p` is
empty (so one placement may capture several disjoint chains); every
captured stone is enemy-colored (never the mover's color); a captured
stone's entire chain is captured with it; and the committed board clears
every captured point to empty. -/
theorem capture_set_spec (n : Nat) (b : Grid) (player : Nat) (p : Point)
    (hwf : WfGrid n b) (hplayer : player = 1 ∨ player = 2)
    (_hp : p ∈ boardPoints n) (_hocc : gridGet b p = player) :
    (∀ q, q ∈ check_capture n b player p ↔
      ∃ adj, adj ∈ boardPoints n ∧ adjacent p adj ∧
        gridGet b adj = 3 - player ∧
        get_liberties n b (get_group n b adj) \ {p} = ∅ ∧
        q ∈ get_group n b adj) ∧
    (∀ q ∈ check_capture n b player p,
      gridGet b q = 3 - player ∧ gridGet b q ≠ player) ∧
    (∀ q ∈ check_capture n b player p,
      get_group n b q ⊆ check_capture n b player p) ∧
    (∀ q ∈ check_capture n b player p,
      gridGet (clearPoints b (check_capture n b player p)) q = 0) := by
  refine ⟨fun q => mem_check_capture, ?_, ?_, ?_⟩
  · intro q hq
    have h := check_capture_color hq
    refine ⟨h.2, ?_⟩
    rw [h.2]
    rcases hplayer with h1 | h1 <;> simp [h1]
  · intro q hq
    exact group_subset_check_capture hq
  · intro q hq
    have hbp := (check_capture_color hq).1
    rw [gridGet_clearPoints hwf hbp, if_pos hq]

theorem capture_set_spec_witness :
    (∀ q, q ∈ check_capture 2 [[1, 2], [0, 1]] 1 (0, 0) ↔
      ∃ adj, adj ∈ boardPoints 2 ∧ adjacent (0, 0) adj ∧
        gridGet [[1, 2], [0, 1]] adj = 3 - 1 ∧
        get_liberties 2 [[1, 2], [0, 1]]
          (get_group 2 [[1, 2], [0, 1]] adj) \ {(0, 0)} = ∅ ∧
        q ∈ get_group 2 [[1, 2], [0, 1]] adj) ∧
    (∀ q ∈ check_capture 2 [[1, 2], [0, 1]] 1 (0, 0),
      gridGet [[1, 2], [0, 1]] q = 3 - 1 ∧ gridGet [[1, 2], [0, 1]] q ≠ 1) ∧
    (∀ q ∈ check_capture 2 [[1, 2], [0, 1]] 1 (0, 0),
      get_group 2 [[1, 2], [0, 1]] q ⊆
        check_capture 2 [[1, 2], [0, 1]] 1 (0, 0)) ∧
    (∀ q ∈ check_capture 2 [[1, 2], [0, 1]] 1 (0, 0),
      gridGet (clearPoints [[1, 2], [0, 1]]
        (check_capture 2 [[1, 2], [0, 1]] 1 (0, 0))) q = 0) :=
  capture_set_spec 2 [[1, 2], [0, 1]] 1 (0, 0) (by decide) (Or.inl rfl)
    (by decide) (by decide)

/-- C5: in every state reachable from a fresh game by `make_move` calls,
every chain on the board has at least one liberty — no zero-liberty chain
of either color survives an accepted placement and its capture
resolution. -/
theorem no_dead_chains_reachable (g : GoGame) (hR : Reachable g) :
    ∀ p ∈ boardPoints g.size, gridGet g.board p ≠ 0 →
      (get_liberties g.size g.board (get_group g.size g.board p)).Nonempty :=
  (reachable_inv hR).2.2.2.2

theorem no_dead_chains_reachable_witness :
    (get_liberties witnessGame1.size witnessGame1.board
      (get_group witnessGame1.size witnessGame1.board (0, 0))).Nonempty :=
  no_dead_chains_reachable witnessGame1
    (Reachable.step (initGame 2) (MoveArg.coord 0 0) (Reachable.init 2))
    (0, 0) (by decide) (by decide)

/-- C7 counterexample: a game finished by two passes still reports every
empty point as a valid move — `is_valid_move` and `get_valid_moves` never
consult the game status, so the status check is not part of the legality
decision they implement. -/
theorem finished_valid_moves_counterexample :
    (make_move (make_move (initGame 2) MoveArg.pass).2 MoveArg.pass).2.state
        = GState.FINISHED ∧
    get_valid_moves
        (make_move (make_move (initGame 2) MoveArg.pass).2 MoveArg.pass).2
      ≠ [] ∧
    is_valid_move
        (make_move (make_move (initGame 2) MoveArg.pass).2 MoveArg.pass).2
        (MoveArg.coord 0 0) = true := by
  refine ⟨rfl, ?_, by decide⟩
  decide

/-- C7 (amended): in a Finished state `make_move` rejects every move (its
first condition is the status check), but the status check lives only in
`make_move`: `is_valid_move` and `get_valid_moves` are independent of the
status field, so a Finished game may still enumerate nonempty legal
moves. -/
theorem finished_rejects_all_apply (g : GoGame) (m : MoveArg) (s : GState)
    (h : g.state = GState.FINISHED) :
    make_move g m = (false, g) ∧
    is_valid_move { g with state := s } m = is_valid_move g m ∧
    get_valid_moves { g with state := s } = get_valid_moves g :=
  ⟨make_move_finished m h, rfl, rfl⟩

/-- The terminal state obtained by two immediate passes. -/
def finishedGame2 : GoGame :=
  (make_move (make_move (initGame 2) MoveArg.pass).2 MoveArg.pass).2

theorem finished_rejects_all_apply_witness :
    make_move finishedGame2 MoveArg.pass = (false, finishedGame2) ∧
    is_valid_move { finishedGame2 with state := GState.ONGOING } MoveArg.pass
      = is_valid_move finishedGame2 MoveArg.pass ∧
    get_valid_moves { finishedGame2 with state := GState.ONGOING }
      = get_valid_moves finishedGame2 :=
  finished_rejects_all_apply finishedGame2 MoveArg.pass GState.ONGOING rfl

/-- C8: two consecutive passes from an Ongoing state leave the game
Finished; every `make_move` call on a Finished state is rejected with the
state returned unchanged (idempotent rejection); and an accepted stone
placement always resets the consecutive-pass counter to zero. -/
theorem pass_termination_spec (g gf : GoGame) (m : MoveArg) (x y : Int)
    (hg : g.state = GState.ONGOING) (hgf : gf.state = GState.FINISHED) :
    (make_move (make_move g MoveArg.pass).2 MoveArg.pass).2.state
        = GState.FINISHED ∧
    make_move gf m = (false, gf) ∧
    ((make_move g (MoveArg.coord x y)).1 = true →
      (make_move g (MoveArg.coord x y)).2.consecutive_passes = 0) := by
  have hs1 : g.state ≠ GState.FINISHED := by
    rw [hg]
    simp
  refine ⟨?_, make_move_finished m hgf, ?_⟩
  · have pass_state : ∀ g0 : GoGame, g0.state ≠ GState.FINISHED →
        (make_move g0 MoveArg.pass).2.state =
            (if 2 ≤ g0.consecutive_passes + 1 then GState.FINISHED
             else g0.state) ∧
          (make_move g0 MoveArg.pass).2.consecutive_passes =
            g0.consecutive_passes + 1 := by
      intro g0 hs0
      simp only [make_move]
      rw [if_neg hs0]
      exact ⟨rfl, rfl⟩
    obtain ⟨hstate1, hpass1⟩ := pass_state g hs1
    by_cases h2 : 2 ≤ g.consecutive_passes + 1
    · have hfin : (make_move g MoveArg.pass).2.state = GState.FINISHED := by
        rw [hstate1, if_pos h2]
      rw [make_move_finished _ hfin]
      exact hfin
    · have hnfin : (make_move g MoveArg.pass).2.state ≠ GState.FINISHED := by
        rw [hstate1, if_neg h2, hg]
        simp
      obtain ⟨hstate2, _⟩ := pass_state _ hnfin
      rw [hstate2, if_pos (by rw [hpass1]; omega)]
  · intro hacc
    by_cases hs : g.state = GState.FINISHED
    · rw [make_move_finished _ hs] at hacc
      exact absurd hacc (by simp)
    · simp only [make_move] at hacc ⊢
      rw [if_neg hs] at hacc ⊢
      by_cases hr : 0 ≤ x ∧ x < (g.size : Int) ∧ 0 ≤ y ∧ y < (g.size : Int)
      · rw [if_pos hr] at hacc ⊢
        by_cases hv : is_valid_move g (MoveArg.coord x y) = true
        · rw [if_pos hv]
        · rw [if_neg hv] at hacc
          exact absurd hacc (by simp)
      · rw [if_neg hr] at hacc
        exact absurd hacc (by simp)

theorem pass_termination_spec_witness :
    (make_move (make_move (initGame 2) MoveArg.pass).2 MoveArg.pass).2.state
        = GState.FINISHED ∧
    make_move finishedGame2 MoveArg.pass = (false, finishedGame2) ∧
    ((make_move (initGame 2) (MoveArg.coord 0 0)).1 = true →
      (make_move (initGame 2) (MoveArg.coord 0 0)).2.consecutive_passes
        = 0) :=
  pass_termination_spec (initGame 2) finishedGame2 MoveArg.pass 0 0 rfl
    (by decide)

/-- C9 counterexample: scoring succeeds while the game is still Ongoing —
`calculate_territory` performs no status check and returns an ordinary
score for the fresh (Ongoing) game instead of signaling any error. -/
theorem scoring_ongoing_counterexample :
    (initGame 2).state = GState.ONGOING ∧
    calculate_territory (initGame 2) = (0, 0) := by
  refine ⟨rfl, ?_⟩
  decide

/-- C9 (amended): `calculate_territory` never consults the game status and
has no error channel: its result is identical whatever the status field
holds, so scoring is not restricted to Finished games and no
InvalidQuery-style error distinct from move rejection exists in the
code. -/
theorem scoring_ignores_status (g : GoGame) (s : GState) :
    calculate_territory { g with state := s } = calculate_territory g := rfl

/-- C10 counterexample: a 2-tuple whose components are not integers (e.g.
`("a", "b")`) passes the `isinstance`/`len` guard, after which the range
comparison `0 <= x < self.size` raises an uncaught TypeError on an Ongoing
game (modelled as `none`), instead of returning a rejection. -/
theorem non_numeric_pair_faults_counterexample :
    (initGame 2).state = GState.ONGOING ∧
    make_move_checked (initGame 2) PyMoveArg.nonNumPair = none :=
  ⟨rfl, rfl⟩

/-- C10 (amended): arguments that are not tuples or are tuples of length
≠ 2 are rejected with the state unchanged, and integer coordinate pairs
with a component outside [0, N) are rejected with the state unchanged; but
a 2-tuple with non-integer components raises an uncaught fault rather than
returning a rejection. -/
theorem malformed_rejection_spec (g : GoGame) (x y : Int)
    (hout : ¬ (0 ≤ x ∧ x < (g.size : Int) ∧ 0 ≤ y ∧ y < (g.size : Int))) :
    make_move g MoveArg.malformed = (false, g) ∧
    make_move g (MoveArg.coord x y) = (false, g) := by
  constructor
  · by_cases hs : g.state = GState.FINISHED
    · exact make_move_finished _ hs
    · simp only [make_move]
      rw [if_neg hs]
  · by_cases hs : g.state = GState.FINISHED
    · exact make_move_finished _ hs
    · simp only [make_move]
      rw [if_neg hs, if_neg hout]

theorem malformed_rejection_spec_witness :
    make_move (initGame 2) MoveArg.malformed = (false, initGame 2) ∧
    make_move (initGame 2) (MoveArg.coord (-1) 0) = (false, initGame 2) :=
  malformed_rejection_spec (initGame 2) (-1) 0 (by decide)

end EnjoyGo
